import Mathlib

/-!
# A verification development for the ReactESP event reactor

This file gives a shallow embedding of the ReactESP event-loop core
(`src/events.h`, `src/event_loop.cpp`, plus the legacy `Reactduino.cpp`
registration table) and proves properties of the embedded definitions.

Modelling conventions:
* `uint64_t` arithmetic is `Nat` with an explicit `% U64` wherever the
  source performs a 64-bit addition or multiplication that could wrap.
* The `std::priority_queue` over `TimedEvent*` with `TriggerTimeCompare`
  is modelled as a bag (a `List`) together with `popMin`, which removes
  the first element of minimal trigger time; the C++ heap's tie-breaking
  among equal keys is unspecified, so any deterministic choice is a
  faithful refinement.
* Callbacks are identified by a numeric id; "the callback was invoked"
  is modelled by the id appearing in the invocation trace that the
  embedded operations return.
* Time is frozen during one `tick` call: every `micros64()` read during
  the call returns the same value `now`.  (`EventLoop::tickTimed`
  captures `now` once; `RepeatEvent::tick` re-reads the clock, but under
  the frozen-time abstraction both reads coincide.)
-/

namespace ReactESP

/-- The modulus of `uint64_t` arithmetic. -/
def U64 : Nat := 2 ^ 64

/-- The concrete kind of a `TimedEvent`: `DelayEvent` or `RepeatEvent`. -/
inductive TimedKind where
  | delayEvent
  | repeatEvent
deriving DecidableEq, Repr

/-- State of a `TimedEvent` (fields of the C++ class `TimedEvent` in
`src/events.h`), plus an `id` naming its callback and a `kind` tag that
stands in for the virtual dispatch between `DelayEvent` and
`RepeatEvent`. -/
structure TimedEvent where
  id : Nat
  interval : Nat
  last_trigger_time : Nat
  enabled : Bool
  kind : TimedKind
deriving DecidableEq, Repr

/-- `TimedEvent::getTriggerTimeMicros`: `last_trigger_time + interval`
as a `uint64_t` sum. -/
def TimedEvent.getTriggerTimeMicros (e : TimedEvent) : Nat :=
  (e.last_trigger_time + e.interval) % U64

/-- `TimedEvent::TimedEvent(uint32_t interval, react_callback)` converts
the millisecond argument with `(uint64_t)1000 * (uint64_t)interval`, a
64-bit multiplication. -/
def intervalMicrosOfMillis (interval : Nat) : Nat :=
  (1000 * interval) % U64

/-- The millisecond constructor of `TimedEvent` (and hence of
`DelayEvent`/`RepeatEvent` created via `onDelay`/`onRepeat`). -/
def TimedEvent.mkMillis (id interval now : Nat) (kind : TimedKind) : TimedEvent :=
  { id := id
    interval := intervalMicrosOfMillis interval
    last_trigger_time := now
    enabled := true
    kind := kind }

/-- The microsecond constructor of `TimedEvent` (used by
`onDelayMicros`/`onRepeatMicros`). -/
def TimedEvent.mkMicros (id interval now : Nat) (kind : TimedKind) : TimedEvent :=
  { id := id
    interval := interval % U64
    last_trigger_time := now
    enabled := true
    kind := kind }

/-- `TimedEvent::remove`: only flips the `enabled` flag; the object is
reclaimed later when it is popped from the timer queue. -/
def TimedEvent.remove (e : TimedEvent) : TimedEvent :=
  { e with enabled := false }

/-- Pop an element of minimal trigger time (the element `top()` of the
`std::priority_queue` ordered by `TriggerTimeCompare`, which compares
`uint64_t` trigger times).  Returns that element and the remaining
queue, or `none` when the queue is empty. -/
def popMin : List TimedEvent → Option (TimedEvent × List TimedEvent)
  | [] => none
  | e :: es =>
    match popMin es with
    | none => some (e, [])
    | some (m, rest) =>
      if e.getTriggerTimeMicros ≤ m.getTriggerTimeMicros then
        some (e, es)
      else
        some (m, e :: rest)

/-- `RepeatEvent::tick` state update (`src/events.cpp`):
`last_trigger_time = last_trigger_time + interval;` then
`if (last_trigger_time + interval < now) last_trigger_time = now;`
with all sums performed in `uint64_t`. -/
def RepeatEvent.tickUpdate (now : Nat) (e : TimedEvent) : TimedEvent :=
  if ((e.last_trigger_time + e.interval) % U64 + e.interval) % U64 < now then
    { e with last_trigger_time := now }
  else
    { e with last_trigger_time := (e.last_trigger_time + e.interval) % U64 }

/-- `EventLoop::tickTimed` (`src/event_loop.cpp`): with `now` captured
once at the start, repeatedly inspect the minimum element; a disabled
element is popped and destroyed; a due element (`now >= trigger_t`) is
popped and ticked (a `DelayEvent` fires and destroys itself, a
`RepeatEvent` fires, updates its baseline and re-pushes itself);
otherwise the loop breaks.  The C++ `while (true)` loop is made total
with a fuel parameter; results are stated either for arbitrary fuel or
for fuel provably sufficient for the loop to break on its own.
Returns the list of fired `(id, trigger time at pop)` pairs in
invocation order, together with the final queue. -/
def tickTimedAux (now : Nat) : Nat → List TimedEvent → List (Nat × Nat) × List TimedEvent
  | 0, q => ([], q)
  | fuel + 1, q =>
    match popMin q with
    | none => ([], q)
    | some (top, rest) =>
      if top.enabled = false then
        tickTimedAux now fuel rest
      else if top.getTriggerTimeMicros ≤ now then
        match top.kind with
        | TimedKind.delayEvent =>
          let r := tickTimedAux now fuel rest
          ((top.id, top.getTriggerTimeMicros) :: r.1, r.2)
        | TimedKind.repeatEvent =>
          let r := tickTimedAux now fuel (rest ++ [RepeatEvent.tickUpdate now top])
          ((top.id, top.getTriggerTimeMicros) :: r.1, r.2)
      else
        ([], q)

/-- Iterate `tickTimed` over a sequence of calls; each call supplies the
`now` read at its start and its fuel.  Returns the concatenated firing
trace and the final queue. -/
def runTicks : List (Nat × Nat) → List TimedEvent → List (Nat × Nat) × List TimedEvent
  | [], q => ([], q)
  | (now, fuel) :: ticks, q =>
    let r := tickTimedAux now fuel q
    let r' := runTicks ticks r.2
    (r.1 ++ r'.1, r'.2)

/-- The concrete kind of an `UntimedEvent`: a `StreamEvent` watching the
stream named `streamId`, or a `TickEvent`. -/
inductive UntimedKind where
  | streamEvent (streamId : Nat)
  | tickEvent
deriving DecidableEq, Repr

/-- An `UntimedEvent` (`src/events.h`): a callback id plus the concrete
kind standing in for the virtual dispatch. -/
structure UntimedEvent where
  id : Nat
  kind : UntimedKind
deriving DecidableEq, Repr

/-- Whether one `tick` of the given untimed event invokes its callback.
`StreamEvent::tick` fires iff `0 != stream.available()` (the stream
environment `avail` gives each stream's `available()` result, an `int`);
`TickEvent::tick` fires unconditionally. -/
def UntimedEvent.tickFires (avail : Nat → Int) (e : UntimedEvent) : Bool :=
  match e.kind with
  | UntimedKind.streamEvent s => avail s != 0
  | UntimedKind.tickEvent => true

/-- `EventLoop::tickUntimed`: iterate over `untimed_list` front to back,
ticking each event.  Returns the ids of the invoked callbacks in order;
the list itself is not modified. -/
def tickUntimed (avail : Nat → Int) (l : List UntimedEvent) : List Nat :=
  l.filterMap fun e => if e.tickFires avail then some e.id else none

/-- An `ISREvent` (`src/events.h`): GPIO pin, mode, and callback id. -/
structure ISREvent where
  id : Nat
  pin_number : Nat
  mode : Int
deriving DecidableEq, Repr

/-- `ISREvent::tick(EventLoop*)` has an empty body: it invokes no
callback.  The returned list is the trace of callbacks it invokes. -/
def ISREvent.tick (_e : ISREvent) : List Nat := []

/-- `ISREvent::isr` (the ESP32 trampoline registered with
`gpio_isr_handler_add`): it casts its argument back to the event and
calls `this_->callback()` directly, so the callback trace of one
interrupt occurrence is the event's own callback.  (The ESP8266 branch
attaches `callback` itself via `attachInterrupt`, with the same
effect.) -/
def ISREvent.isr (e : ISREvent) : List Nat := [e.id]

/-- The model of the platform GPIO interrupt facility.  Modelled from
the spec: the host platform provides
`register_interrupt(pin, mode, trampoline) -> registration_token` with
a finite interrupt-slot capacity that can be exhausted (spec sections 6
and 7); the state is the number of free slots and the list of pins with
an attached handler. -/
structure GpioPlatform where
  free_slots : Nat
  attached_pins : List Nat
deriving DecidableEq, Repr

/-- Modelled from the spec: `gpio_isr_handler_add` (an external ESP-IDF
primitive, absent from the sources) attaches the handler and consumes a
slot, or fails — returning an error and leaving the platform unchanged —
when the capacity is exhausted.  The `Bool` is `true` on success. -/
def gpioIsrHandlerAdd (p : GpioPlatform) (pin : Nat) : GpioPlatform × Bool :=
  if p.free_slots = 0 then
    (p, false)
  else
    ({ free_slots := p.free_slots - 1, attached_pins := pin :: p.attached_pins }, true)

/-- The `EventLoop` collections (`src/event_loop.h`): the timer queue,
the untimed-event list and the ISR-event list.  (The `isr_pending_list`
member also declared there is never read or written by any member
function in the sources, so it is omitted.) -/
structure EventLoop where
  timed_queue : List TimedEvent
  untimed_list : List UntimedEvent
  isr_event_list : List ISREvent
deriving DecidableEq, Repr

/-- `UntimedEvent::add`: `event_loop->untimed_list.push_back(this)` —
the event is appended at the back of the untimed list. -/
def UntimedEvent.add (e : UntimedEvent) (loop : EventLoop) : EventLoop :=
  { loop with untimed_list := loop.untimed_list ++ [e] }

/-- `ISREvent::add`: calls `gpio_isr_handler_add` (its result is
ignored) and then `isr_event_list.push_back(this)` — the event is
appended to the ISR list whether or not the platform registration
succeeded. -/
def ISREvent.add (e : ISREvent) (p : GpioPlatform) (loop : EventLoop) :
    GpioPlatform × EventLoop :=
  ((gpioIsrHandlerAdd p e.pin_number).1,
   { loop with isr_event_list := loop.isr_event_list ++ [e] })

/-- `EventLoop::onInterrupt`: `new ISREvent(...); isrre->add(this);
return isrre;` — it always returns the freshly created event. -/
def EventLoop.onInterrupt (pin : Nat) (mode : Int) (id : Nat)
    (p : GpioPlatform) (loop : EventLoop) :
    ISREvent × GpioPlatform × EventLoop :=
  let isrre : ISREvent := { id := id, pin_number := pin, mode := mode }
  let r := isrre.add p loop
  (isrre, r.1, r.2)

/-- `EventLoop::tick`: `tickUntimed(); tickTimed();` — the untimed pass
runs first, then the timed pass; there is no interrupt pass.  Returns
the invocation trace (callback ids in order) and the new state. -/
def EventLoop.tick (avail : Nat → Int) (now fuel : Nat) (loop : EventLoop) :
    List Nat × EventLoop :=
  let u := tickUntimed avail loop.untimed_list
  let t := tickTimedAux now fuel loop.timed_queue
  (u ++ t.1.map Prod.fst, { loop with timed_queue := t.2 })

/-! ## The legacy Reactduino registration table (`src/Reactduino.cpp`) -/

/-- `INVALID_REACTION` (-1), the failure sentinel of the legacy API. -/
def INVALID_REACTION : Int := -1

/-- `INVALID_ISR` (-1), the failure sentinel of the ISR slot
allocator. -/
def INVALID_ISR : Int := -1

/-- An entry of the legacy `_table`; for the claims below only the ISR
entries matter, other kinds are collapsed into `otherEntry`. -/
inductive ReactionEntry where
  | isrReactionEntry (pin_number : Nat) (isr : Int) (id : Nat)
  | otherEntry (id : Nat)
deriving DecidableEq, Repr

/-- Modelled from the spec: the ISR slot allocator `react_isr_alloc`
from `ReactduinoISR.c`, a file absent from the sources (only its
declarations and callers remain).  Per the spec the platform has a
finite interrupt-slot capacity; the allocator hands out the first free
slot and surfaces exhaustion as `INVALID_ISR`.  The slot table is a
list of booleans, `true` meaning in use. -/
def react_isr_alloc : List Bool → Int × List Bool
  | [] => (INVALID_ISR, [])
  | b :: rest =>
    if b = false then
      (0, true :: rest)
    else
      match react_isr_alloc rest with
      | (i, rest') =>
        if i = INVALID_ISR then (INVALID_ISR, b :: rest) else (i + 1, b :: rest')

/-- Modelled from the spec: `react_isr_free` from the absent
`ReactduinoISR.c` releases a slot obtained from `react_isr_alloc`. -/
def react_isr_free (slots : List Bool) (i : Int) : List Bool :=
  slots.set i.toNat false

/-- State of the legacy `Reactduino` reactor: the fixed-size `_table`
of reaction entries (free slots are `none`), the `_top` stack pointer,
the platform ISR slot table, and the list of pins with an attached
interrupt. -/
structure Reactduino where
  table : List (Option ReactionEntry)
  top : Nat
  isr_slots : List Bool
  attached_pins : List Nat
deriving DecidableEq, Repr

/-- The search loop of `Reactduino::alloc`: find the first index `r`
with `r >= _top || _table[r] == nullptr`, store the entry there and
return the index together with the updated table. -/
def Reactduino.allocFrom (re : ReactionEntry) :
    Nat → Nat → List (Option ReactionEntry) → Option (Nat × List (Option ReactionEntry))
  | _, _, [] => none
  | r, top, slot :: rest =>
    if top ≤ r ∨ slot = none then
      some (r, some re :: rest)
    else
      match Reactduino.allocFrom re (r + 1) top rest with
      | none => none
      | some (idx, rest') => some (idx, slot :: rest')

/-- `Reactduino::alloc`: place the entry via the search loop, bump
`_top` when allocating at the top, and return `INVALID_REACTION` when
the table is full. -/
def Reactduino.alloc (st : Reactduino) (re : ReactionEntry) : Int × Reactduino :=
  match Reactduino.allocFrom re 0 st.top st.table with
  | none => (INVALID_REACTION, st)
  | some (r, table') => (Int.ofNat r, { st with table := table', top := max st.top (r + 1) })

/-- `Reactduino::onInterrupt` (`src/Reactduino.cpp`, lines 111-134):
allocate an ISR slot; on `INVALID_ISR` fail immediately; allocate a
table entry; if that fails, free the ISR slot and fail; otherwise
attach the interrupt and return the reaction handle. -/
def Reactduino.onInterrupt (st : Reactduino) (number : Nat) (id : Nat) : Int × Reactduino :=
  let a := react_isr_alloc st.isr_slots
  if a.1 = INVALID_ISR then
    (INVALID_REACTION, st)
  else
    let st₁ : Reactduino := { st with isr_slots := a.2 }
    let b := st₁.alloc (ReactionEntry.isrReactionEntry number a.1 id)
    if b.1 = INVALID_REACTION then
      (INVALID_REACTION, { b.2 with isr_slots := react_isr_free b.2.isr_slots a.1 })
    else
      (b.1, { b.2 with attached_pins := number :: b.2.attached_pins })

/-- The baseline update of a firing repeat event as the spec words it
(for the refinement check of the code against the spec): compute
next = last_trigger_time + interval; if next + interval < now, set
last_trigger_time = now, otherwise set last_trigger_time = next. -/
def RepeatEventSpec.tickUpdateLast (now last interval : Nat) : Nat :=
  if last + interval + interval < now then now else last + interval

/-! ## Concrete fixtures used by the witnesses below -/

/-- A concrete delay event used by the witnesses below. -/
def delayA : TimedEvent := ⟨1, 10, 0, true, TimedKind.delayEvent⟩

/-- A concrete delay event used by the witnesses below. -/
def delayB : TimedEvent := ⟨2, 5, 0, true, TimedKind.delayEvent⟩

/-- A concrete delay event used by the witnesses below. -/
def delayC : TimedEvent := ⟨3, 50, 0, true, TimedKind.delayEvent⟩

/-- A concrete repeat event used by the witnesses below. -/
def repeatR : TimedEvent := ⟨7, 100, 0, true, TimedKind.repeatEvent⟩

/-- A concrete stream event used by the witnesses below. -/
def streamE : UntimedEvent := ⟨4, UntimedKind.streamEvent 0⟩

/-- A concrete tick event used by the witnesses below. -/
def tickE : UntimedEvent := ⟨5, UntimedKind.tickEvent⟩

/-- A concrete loop with two untimed events, used by the witnesses
below. -/
def loopU : EventLoop := ⟨[], [streamE, tickE], []⟩

/-- A concrete ISR event used below. -/
def isrE : ISREvent := ⟨0, 4, 1⟩

/-- A concrete loop holding only the ISR event, used below. -/
def loopISR : EventLoop := ⟨[], [], [isrE]⟩

/-- A concrete platform with no free interrupt slots, used below. -/
def platFull : GpioPlatform := ⟨0, []⟩

/-- A concrete empty loop, used below. -/
def loopEmpty : EventLoop := ⟨[], [], []⟩

/-- A concrete legacy reactor whose ISR slots are all in use, used
below. -/
def reactduinoFull : Reactduino := ⟨[none, none], 0, [true, true], []⟩

/-! ## Properties of the queue model -/

theorem popMin_none_iff (q : List TimedEvent) : popMin q = none ↔ q = [] := by
  constructor
  · intro h
    cases q with
    | nil => rfl
    | cons e es =>
      simp only [popMin] at h
      rcases hes : popMin es with _ | ⟨m, rest⟩ <;> simp [hes] at h
      split at h <;> simp at h
  · intro h
    subst h
    rfl

theorem popMin_cons_none {e : TimedEvent} {es : List TimedEvent}
    (hes : popMin es = none) : popMin (e :: es) = some (e, []) := by
  rw [popMin, hes]

theorem popMin_cons_some {e m : TimedEvent} {es r : List TimedEvent}
    (hes : popMin es = some (m, r)) :
    popMin (e :: es) =
      (if e.getTriggerTimeMicros ≤ m.getTriggerTimeMicros then
        some (e, es)
      else
        some (m, e :: r)) := by
  rw [popMin, hes]

theorem popMin_perm {q : List TimedEvent} {top : TimedEvent} {rest : List TimedEvent}
    (h : popMin q = some (top, rest)) : q.Perm (top :: rest) := by
  induction q generalizing top rest with
  | nil => simp [popMin] at h
  | cons e es ih =>
    rcases hes : popMin es with _ | ⟨m, r⟩
    · rw [popMin_cons_none hes] at h
      have hnil : es = [] := (popMin_none_iff es).mp hes
      simp only [Option.some.injEq, Prod.mk.injEq] at h
      obtain ⟨rfl, rfl⟩ := h
      rw [hnil]
    · rw [popMin_cons_some hes] at h
      by_cases hle : e.getTriggerTimeMicros ≤ m.getTriggerTimeMicros
      · rw [if_pos hle] at h
        simp only [Option.some.injEq, Prod.mk.injEq] at h
        obtain ⟨rfl, rfl⟩ := h
        exact List.Perm.refl _
      · rw [if_neg hle] at h
        simp only [Option.some.injEq, Prod.mk.injEq] at h
        obtain ⟨rfl, rfl⟩ := h
        have hp : (e :: es).Perm (e :: m :: r) := (ih hes).cons e
        exact hp.trans (List.Perm.swap m e r)

theorem popMin_le {q : List TimedEvent} {top : TimedEvent} {rest : List TimedEvent}
    (h : popMin q = some (top, rest)) :
    ∀ e ∈ q, top.getTriggerTimeMicros ≤ e.getTriggerTimeMicros := by
  induction q generalizing top rest with
  | nil => simp [popMin] at h
  | cons e es ih =>
    rcases hes : popMin es with _ | ⟨m, r⟩
    · rw [popMin_cons_none hes] at h
      have hnil : es = [] := (popMin_none_iff es).mp hes
      simp only [Option.some.injEq, Prod.mk.injEq] at h
      obtain ⟨rfl, rfl⟩ := h
      rw [hnil]
      intro x hx
      simp only [List.mem_singleton] at hx
      subst hx
      exact Nat.le_refl _
    · rw [popMin_cons_some hes] at h
      by_cases hle : e.getTriggerTimeMicros ≤ m.getTriggerTimeMicros
      · rw [if_pos hle] at h
        simp only [Option.some.injEq, Prod.mk.injEq] at h
        obtain ⟨rfl, rfl⟩ := h
        intro x hx
        rcases List.mem_cons.mp hx with hx | hx
        · subst hx; exact Nat.le_refl _
        · exact Nat.le_trans hle (ih hes x hx)
      · rw [if_neg hle] at h
        simp only [Option.some.injEq, Prod.mk.injEq] at h
        obtain ⟨rfl, rfl⟩ := h
        intro x hx
        rcases List.mem_cons.mp hx with hx | hx
        · subst hx; exact Nat.le_of_lt (Nat.lt_of_not_le hle)
        · exact ih hes x hx

theorem popMin_mem {q : List TimedEvent} {top : TimedEvent} {rest : List TimedEvent}
    (h : popMin q = some (top, rest)) :
    top ∈ q ∧ ∀ e ∈ rest, e ∈ q := by
  have hp := popMin_perm h
  constructor
  · exact hp.mem_iff.mpr (List.mem_cons_self top rest)
  · intro e he
    exact hp.mem_iff.mpr (List.mem_cons_of_mem top he)

/-- Re-pushing a fired repeat event never lowers its trigger time, as
long as the `uint64_t` sum `now + interval` does not wrap. -/
theorem tickUpdate_trigger_ge {now : Nat} {e : TimedEvent}
    (hdue : e.getTriggerTimeMicros ≤ now) (hov : now + e.interval < U64) :
    e.getTriggerTimeMicros ≤ (RepeatEvent.tickUpdate now e).getTriggerTimeMicros := by
  unfold RepeatEvent.tickUpdate
  unfold TimedEvent.getTriggerTimeMicros at *
  split
  · simp only
    have h2 : (now + e.interval) % U64 = now + e.interval := Nat.mod_eq_of_lt hov
    rw [h2]
    exact Nat.le_trans hdue (Nat.le_add_right _ _)
  · simp only
    have h1 : (e.last_trigger_time + e.interval) % U64 + e.interval < U64 := by
      have hle : (e.last_trigger_time + e.interval) % U64 ≤ now := hdue
      omega
    have h2 :
        ((e.last_trigger_time + e.interval) % U64 + e.interval) % U64 =
          (e.last_trigger_time + e.interval) % U64 + e.interval := Nat.mod_eq_of_lt h1
    rw [h2]
    exact Nat.le_add_right _ _

theorem tickUpdate_fields (now : Nat) (e : TimedEvent) :
    (RepeatEvent.tickUpdate now e).id = e.id ∧
    (RepeatEvent.tickUpdate now e).interval = e.interval ∧
    (RepeatEvent.tickUpdate now e).enabled = e.enabled ∧
    (RepeatEvent.tickUpdate now e).kind = e.kind := by
  unfold RepeatEvent.tickUpdate
  split <;> simp

theorem tickTimedAux_zero (now : Nat) (q : List TimedEvent) :
    tickTimedAux now 0 q = ([], q) := rfl

theorem tickTimedAux_nil (now n : Nat) {q : List TimedEvent} (hq : popMin q = none) :
    tickTimedAux now (n + 1) q = ([], q) := by
  simp [tickTimedAux, hq]

theorem tickTimedAux_disabled (now n : Nat) {q rest : List TimedEvent} {top : TimedEvent}
    (hq : popMin q = some (top, rest)) (hen : top.enabled = false) :
    tickTimedAux now (n + 1) q = tickTimedAux now n rest := by
  simp [tickTimedAux, hq, hen]

theorem tickTimedAux_delay (now n : Nat) {q rest : List TimedEvent} {top : TimedEvent}
    (hq : popMin q = some (top, rest)) (hen : top.enabled = true)
    (hdue : top.getTriggerTimeMicros ≤ now) (hkind : top.kind = TimedKind.delayEvent) :
    tickTimedAux now (n + 1) q =
      ((top.id, top.getTriggerTimeMicros) :: (tickTimedAux now n rest).1,
        (tickTimedAux now n rest).2) := by
  simp [tickTimedAux, hq, hen, hdue, hkind]

theorem tickTimedAux_repeat (now n : Nat) {q rest : List TimedEvent} {top : TimedEvent}
    (hq : popMin q = some (top, rest)) (hen : top.enabled = true)
    (hdue : top.getTriggerTimeMicros ≤ now) (hkind : top.kind = TimedKind.repeatEvent) :
    tickTimedAux now (n + 1) q =
      ((top.id, top.getTriggerTimeMicros) ::
          (tickTimedAux now n (rest ++ [RepeatEvent.tickUpdate now top])).1,
        (tickTimedAux now n (rest ++ [RepeatEvent.tickUpdate now top])).2) := by
  simp [tickTimedAux, hq, hen, hdue, hkind]

theorem tickTimedAux_break (now n : Nat) {q rest : List TimedEvent} {top : TimedEvent}
    (hq : popMin q = some (top, rest)) (hen : top.enabled = true)
    (hdue : ¬ top.getTriggerTimeMicros ≤ now) :
    tickTimedAux now (n + 1) q = ([], q) := by
  simp [tickTimedAux, hq, hen, hdue]

/-- Main drain invariant: as long as `now + interval` does not wrap for
any queued event, every fired trigger time is bounded below by any
lower bound on the queue's trigger times, and the fired trigger times
are non-decreasing. -/
theorem tickTimedAux_sorted (now : Nat) :
    ∀ (fuel : Nat) (q : List TimedEvent),
      (∀ e ∈ q, now + e.interval < U64) →
      (∀ lb, (∀ e ∈ q, lb ≤ e.getTriggerTimeMicros) →
        ∀ p ∈ (tickTimedAux now fuel q).1, lb ≤ p.2) ∧
      List.Sorted (· ≤ ·) ((tickTimedAux now fuel q).1.map Prod.snd) := by
  intro fuel
  induction fuel with
  | zero =>
    intro q _
    constructor
    · intro lb _ p hp
      simp [tickTimedAux] at hp
    · simp [tickTimedAux, List.Sorted]
  | succ n ih =>
    intro q hov
    rcases hq : popMin q with _ | ⟨top, rest⟩
    · constructor
      · intro lb _ p hp
        simp [tickTimedAux, hq] at hp
      · simp [tickTimedAux, hq, List.Sorted]
    · have hmem := popMin_mem hq
      have hmin := popMin_le hq
      by_cases hen : top.enabled = false
      · have hrec :
            tickTimedAux now (n + 1) q = tickTimedAux now n rest := by
          simp [tickTimedAux, hq, hen]
        have hov' : ∀ e ∈ rest, now + e.interval < U64 := fun e he => hov e (hmem.2 e he)
        have := ih rest hov'
        rw [hrec]
        exact ⟨fun lb hlb => this.1 lb (fun e he => hlb e (hmem.2 e he)), this.2⟩
      · have hen' : top.enabled = true := by
          cases h : top.enabled
          · exact absurd h hen
          · rfl
        by_cases hdue : top.getTriggerTimeMicros ≤ now
        · cases hkind : top.kind with
          | delayEvent =>
            have hrec :
                tickTimedAux now (n + 1) q =
                  ((top.id, top.getTriggerTimeMicros) :: (tickTimedAux now n rest).1,
                    (tickTimedAux now n rest).2) := by
              simp [tickTimedAux, hq, hen, hdue, hkind]
            have hov' : ∀ e ∈ rest, now + e.interval < U64 := fun e he => hov e (hmem.2 e he)
            have hih := ih rest hov'
            rw [hrec]
            constructor
            · intro lb hlb p hp
              rcases List.mem_cons.mp hp with hp | hp
              · subst hp
                exact hlb top hmem.1
              · exact hih.1 lb (fun e he => hlb e (hmem.2 e he)) p hp
            · rw [List.map_cons, List.sorted_cons]
              refine ⟨?_, hih.2⟩
              intro b hb
              rcases List.mem_map.mp hb with ⟨p, hp, hpb⟩
              subst hpb
              exact hih.1 top.getTriggerTimeMicros (fun e he => hmin e (hmem.2 e he)) p hp
          | repeatEvent =>
            have hrec :
                tickTimedAux now (n + 1) q =
                  ((top.id, top.getTriggerTimeMicros) ::
                      (tickTimedAux now n (rest ++ [RepeatEvent.tickUpdate now top])).1,
                    (tickTimedAux now n (rest ++ [RepeatEvent.tickUpdate now top])).2) := by
              simp [tickTimedAux, hq, hen, hdue, hkind]
            have hupd := tickUpdate_fields now top
            have hov' : ∀ e ∈ rest ++ [RepeatEvent.tickUpdate now top],
                now + e.interval < U64 := by
              intro e he
              rcases List.mem_append.mp he with he | he
              · exact hov e (hmem.2 e he)
              · simp only [List.mem_singleton] at he
                subst he
                rw [hupd.2.1]
                exact hov top hmem.1
            have hih := ih (rest ++ [RepeatEvent.tickUpdate now top]) hov'
            have hge := tickUpdate_trigger_ge hdue (hov top hmem.1)
            rw [hrec]
            constructor
            · intro lb hlb p hp
              rcases List.mem_cons.mp hp with hp | hp
              · subst hp
                exact hlb top hmem.1
              · refine hih.1 lb ?_ p hp
                intro e he
                rcases List.mem_append.mp he with he | he
                · exact hlb e (hmem.2 e he)
                · simp only [List.mem_singleton] at he
                  subst he
                  exact Nat.le_trans (hlb top hmem.1) hge
            · rw [List.map_cons, List.sorted_cons]
              refine ⟨?_, hih.2⟩
              intro b hb
              rcases List.mem_map.mp hb with ⟨p, hp, hpb⟩
              subst hpb
              refine hih.1 top.getTriggerTimeMicros ?_ p hp
              intro e he
              rcases List.mem_append.mp he with he | he
              · exact hmin e (hmem.2 e he)
              · simp only [List.mem_singleton] at he
                subst he
                exact hge
        · constructor
          · intro lb _ p hp
            simp [tickTimedAux, hq, hen, hdue] at hp
          · simp [tickTimedAux, hq, hen, hdue, List.Sorted]

/-- For a queue of enabled `DelayEvent`s, one drain is pure attrition:
the fired `(id, trigger)` pairs together with the remaining events are a
permutation of the initial queue. -/
theorem tickTimedAux_delay_perm (now : Nat) :
    ∀ (fuel : Nat) (q : List TimedEvent),
      (∀ e ∈ q, e.kind = TimedKind.delayEvent) →
      (∀ e ∈ q, e.enabled = true) →
      ((tickTimedAux now fuel q).1 ++
          (tickTimedAux now fuel q).2.map (fun e => (e.id, e.getTriggerTimeMicros))).Perm
        (q.map fun e => (e.id, e.getTriggerTimeMicros)) := by
  intro fuel
  induction fuel with
  | zero =>
    intro q _ _
    rw [tickTimedAux_zero]
    simp
  | succ n ih =>
    intro q hk he
    rcases hq : popMin q with _ | ⟨top, rest⟩
    · rw [tickTimedAux_nil now n hq]
      simp
    · have hmem := popMin_mem hq
      have hperm := popMin_perm hq
      have hen : top.enabled = true := he top hmem.1
      by_cases hdue : top.getTriggerTimeMicros ≤ now
      · rw [tickTimedAux_delay now n hq hen hdue (hk top hmem.1)]
        have h1 := ih rest (fun e h => hk e (hmem.2 e h)) (fun e h => he e (hmem.2 e h))
        have h2 :
            ((top.id, top.getTriggerTimeMicros) :: (tickTimedAux now n rest).1 ++
                (tickTimedAux now n rest).2.map (fun e => (e.id, e.getTriggerTimeMicros))).Perm
              ((top.id, top.getTriggerTimeMicros) ::
                rest.map fun e => (e.id, e.getTriggerTimeMicros)) := by

          exact (h1.cons _)
        refine h2.trans ?_
        have h3 := hperm.map fun e => (e.id, e.getTriggerTimeMicros)
        simpa using h3.symm
      · rw [tickTimedAux_break now n hq hen hdue]
        simp

/-- For a queue of `DelayEvent`s, every event left in the queue after a
drain was in the queue before it, unchanged. -/
theorem tickTimedAux_rem_mem (now : Nat) :
    ∀ (fuel : Nat) (q : List TimedEvent),
      (∀ e ∈ q, e.kind = TimedKind.delayEvent) →
      ∀ e ∈ (tickTimedAux now fuel q).2, e ∈ q := by
  intro fuel
  induction fuel with
  | zero =>
    intro q _ e hmem
    rw [tickTimedAux_zero] at hmem
    exact hmem
  | succ n ih =>
    intro q hk e hmem
    rcases hq : popMin q with _ | ⟨top, rest⟩
    · rw [tickTimedAux_nil now n hq] at hmem
      exact hmem
    · have hm := popMin_mem hq
      cases hen : top.enabled with
      | false =>
        rw [tickTimedAux_disabled now n hq hen] at hmem
        exact hm.2 e (ih rest (fun x h => hk x (hm.2 x h)) e hmem)
      | true =>
        by_cases hdue : top.getTriggerTimeMicros ≤ now
        · rw [tickTimedAux_delay now n hq hen hdue (hk top hm.1)] at hmem
          simp only at hmem
          exact hm.2 e (ih rest (fun x h => hk x (hm.2 x h)) e hmem)
        · rw [tickTimedAux_break now n hq hen hdue] at hmem
          exact hmem

/-- With fuel at least the queue length, a drain over a queue of
enabled `DelayEvent`s leaves only events that are not yet due. -/
theorem tickTimedAux_rem_not_due (now : Nat) :
    ∀ (fuel : Nat) (q : List TimedEvent),
      (∀ e ∈ q, e.kind = TimedKind.delayEvent) →
      (∀ e ∈ q, e.enabled = true) →
      q.length ≤ fuel →
      ∀ e ∈ (tickTimedAux now fuel q).2, now < e.getTriggerTimeMicros := by
  intro fuel
  induction fuel with
  | zero =>
    intro q _ _ hlen e hmem
    have : q = [] := List.length_eq_zero.mp (Nat.le_zero.mp hlen)
    subst this
    rw [tickTimedAux_zero] at hmem
    simp at hmem
  | succ n ih =>
    intro q hk he hlen e hmem
    rcases hq : popMin q with _ | ⟨top, rest⟩
    · have : q = [] := (popMin_none_iff q).mp hq
      subst this
      rw [tickTimedAux_nil now n hq] at hmem
      simp at hmem
    · have hm := popMin_mem hq
      have hperm := popMin_perm hq
      have hen : top.enabled = true := he top hm.1
      by_cases hdue : top.getTriggerTimeMicros ≤ now
      · rw [tickTimedAux_delay now n hq hen hdue (hk top hm.1)] at hmem
        simp only at hmem
        have hlen' : rest.length ≤ n := by
          have := hperm.length_eq
          simp only [List.length_cons] at this
          omega
        exact ih rest (fun x h => hk x (hm.2 x h)) (fun x h => he x (hm.2 x h)) hlen' e hmem
      · rw [tickTimedAux_break now n hq hen hdue] at hmem
        have := popMin_le hq e hmem
        omega

/-- Every fired entry records a trigger time that was due. -/
theorem tickTimedAux_fired_due (now : Nat) :
    ∀ (fuel : Nat) (q : List TimedEvent),
      ∀ p ∈ (tickTimedAux now fuel q).1, p.2 ≤ now := by
  intro fuel
  induction fuel with
  | zero =>
    intro q p hp
    rw [tickTimedAux_zero] at hp
    simp at hp
  | succ n ih =>
    intro q p hp
    rcases hq : popMin q with _ | ⟨top, rest⟩
    · rw [tickTimedAux_nil now n hq] at hp
      simp at hp
    · cases hen : top.enabled with
      | false =>
        rw [tickTimedAux_disabled now n hq hen] at hp
        exact ih rest p hp
      | true =>
        by_cases hdue : top.getTriggerTimeMicros ≤ now
        · cases hkind : top.kind with
          | delayEvent =>
            rw [tickTimedAux_delay now n hq hen hdue hkind] at hp
            simp only at hp
            rcases List.mem_cons.mp hp with hp | hp
            · subst hp; exact hdue
            · exact ih rest p hp
          | repeatEvent =>
            rw [tickTimedAux_repeat now n hq hen hdue hkind] at hp
            simp only at hp
            rcases List.mem_cons.mp hp with hp | hp
            · subst hp; exact hdue
            · exact ih (rest ++ [RepeatEvent.tickUpdate now top]) p hp
        · rw [tickTimedAux_break now n hq hen hdue] at hp
          simp at hp

/-- For a queue of `DelayEvent`s, every fired entry comes from an event
of the initial queue with that id and trigger time. -/
theorem tickTimedAux_fired_from (now : Nat) :
    ∀ (fuel : Nat) (q : List TimedEvent),
      (∀ e ∈ q, e.kind = TimedKind.delayEvent) →
      ∀ p ∈ (tickTimedAux now fuel q).1,
        ∃ e, e ∈ q ∧ e.id = p.1 ∧ e.getTriggerTimeMicros = p.2 := by
  intro fuel
  induction fuel with
  | zero =>
    intro q _ p hp
    rw [tickTimedAux_zero] at hp
    simp at hp
  | succ n ih =>
    intro q hk p hp
    rcases hq : popMin q with _ | ⟨top, rest⟩
    · rw [tickTimedAux_nil now n hq] at hp
      simp at hp
    · have hm := popMin_mem hq
      cases hen : top.enabled with
      | false =>
        rw [tickTimedAux_disabled now n hq hen] at hp
        obtain ⟨e, he₁, he₂⟩ := ih rest (fun x h => hk x (hm.2 x h)) p hp
        exact ⟨e, hm.2 e he₁, he₂⟩
      | true =>
        by_cases hdue : top.getTriggerTimeMicros ≤ now
        · rw [tickTimedAux_delay now n hq hen hdue (hk top hm.1)] at hp
          simp only at hp
          rcases List.mem_cons.mp hp with hp | hp
          · subst hp
            exact ⟨top, hm.1, rfl, rfl⟩
          · obtain ⟨e, he₁, he₂⟩ := ih rest (fun x h => hk x (hm.2 x h)) p hp
            exact ⟨e, hm.2 e he₁, he₂⟩
        · rw [tickTimedAux_break now n hq hen hdue] at hp
          simp at hp

/-- A disabled event is reclaimed without firing, and nothing in the
drain ever re-enables an event: if every queued event carrying id `i`
is disabled, then no fired entry carries id `i` and the property still
holds of the final queue. -/
theorem tickTimedAux_disabled_invariant (now : Nat) :
    ∀ (fuel : Nat) (q : List TimedEvent) (i : Nat),
      (∀ e ∈ q, e.id = i → e.enabled = false) →
      (∀ p ∈ (tickTimedAux now fuel q).1, p.1 ≠ i) ∧
      (∀ e ∈ (tickTimedAux now fuel q).2, e.id = i → e.enabled = false) := by
  intro fuel
  induction fuel with
  | zero =>
    intro q i hdis
    rw [tickTimedAux_zero]
    exact ⟨by simp, hdis⟩
  | succ n ih =>
    intro q i hdis
    rcases hq : popMin q with _ | ⟨top, rest⟩
    · rw [tickTimedAux_nil now n hq]
      exact ⟨by simp, hdis⟩
    · have hm := popMin_mem hq
      have hdis' : ∀ e ∈ rest, e.id = i → e.enabled = false :=
        fun e h => hdis e (hm.2 e h)
      cases hen : top.enabled with
      | false =>
        rw [tickTimedAux_disabled now n hq hen]
        exact ih rest i hdis'
      | true =>
        have hid : top.id ≠ i := by
          intro hcon
          have := hdis top hm.1 hcon
          rw [hen] at this
          exact Bool.true_eq_false.mp this
        by_cases hdue : top.getTriggerTimeMicros ≤ now
        · cases hkind : top.kind with
          | delayEvent =>
            rw [tickTimedAux_delay now n hq hen hdue hkind]
            have hih := ih rest i hdis'
            refine ⟨?_, hih.2⟩
            intro p hp
            rcases List.mem_cons.mp hp with hp | hp
            · subst hp; exact hid
            · exact hih.1 p hp
          | repeatEvent =>
            rw [tickTimedAux_repeat now n hq hen hdue hkind]
            have hupd := tickUpdate_fields now top
            have hdis'' :
                ∀ e ∈ rest ++ [RepeatEvent.tickUpdate now top],
                  e.id = i → e.enabled = false := by
              intro e he hei
              rcases List.mem_append.mp he with he | he
              · exact hdis' e he hei
              · simp only [List.mem_singleton] at he
                subst he
                rw [hupd.1] at hei
                exact absurd hei hid
            have hih := ih (rest ++ [RepeatEvent.tickUpdate now top]) i hdis''
            refine ⟨?_, hih.2⟩
            intro p hp
            rcases List.mem_cons.mp hp with hp | hp
            · subst hp; exact hid
            · exact hih.1 p hp
        · rw [tickTimedAux_break now n hq hen hdue]
          exact ⟨by simp, hdis⟩

theorem runTicks_nil (q : List TimedEvent) : runTicks [] q = ([], q) := rfl

theorem runTicks_cons (now fuel : Nat) (ticks : List (Nat × Nat)) (q : List TimedEvent) :
    runTicks ((now, fuel) :: ticks) q =
      ((tickTimedAux now fuel q).1 ++ (runTicks ticks (tickTimedAux now fuel q).2).1,
        (runTicks ticks (tickTimedAux now fuel q).2).2) := rfl

/-- Multi-tick version of the disabled invariant: over any sequence of
tick calls, an id all of whose queued carriers are disabled never
appears in the firing trace. -/
theorem runTicks_disabled_invariant :
    ∀ (ticks : List (Nat × Nat)) (q : List TimedEvent) (i : Nat),
      (∀ e ∈ q, e.id = i → e.enabled = false) →
      ∀ p ∈ (runTicks ticks q).1, p.1 ≠ i := by
  intro ticks
  induction ticks with
  | nil =>
    intro q i _ p hp
    rw [runTicks_nil] at hp
    simp at hp
  | cons tk ticks ih =>
    intro q i hdis p hp
    obtain ⟨now, fuel⟩ := tk
    rw [runTicks_cons] at hp
    have h1 := tickTimedAux_disabled_invariant now fuel q i hdis
    rcases List.mem_append.mp hp with hp | hp
    · exact h1.1 p hp
    · exact ih (tickTimedAux now fuel q).2 i h1.2 p hp

/-- Counting version of the attrition permutation: for enabled
`DelayEvent` queues, the number of firings of id `i` in one tick plus
its number of occurrences in the final queue equals its number of
occurrences in the initial queue. -/
theorem tickTimedAux_count (now fuel : Nat) (q : List TimedEvent) (i : Nat)
    (hk : ∀ e ∈ q, e.kind = TimedKind.delayEvent)
    (he : ∀ e ∈ q, e.enabled = true) :
    ((tickTimedAux now fuel q).1.map Prod.fst).count i +
        ((tickTimedAux now fuel q).2.map TimedEvent.id).count i =
      (q.map TimedEvent.id).count i := by
  have hperm := tickTimedAux_delay_perm now fuel q hk he
  have hmap := hperm.map Prod.fst
  have hcnt := hmap.count_eq i
  simp only [List.map_append, List.map_map] at hcnt
  rw [List.count_append] at hcnt
  exact hcnt

/-- Length version of the attrition permutation. -/
theorem tickTimedAux_length (now fuel : Nat) (q : List TimedEvent)
    (hk : ∀ e ∈ q, e.kind = TimedKind.delayEvent)
    (he : ∀ e ∈ q, e.enabled = true) :
    (tickTimedAux now fuel q).1.length + (tickTimedAux now fuel q).2.length = q.length := by
  have hperm := tickTimedAux_delay_perm now fuel q hk he
  have := hperm.length_eq
  simp only [List.length_append, List.length_map] at this
  exact this

/-- Over any tick sequence, an id absent from an enabled `DelayEvent`
queue never fires. -/
theorem runTicks_count_zero :
    ∀ (ticks : List (Nat × Nat)) (q : List TimedEvent) (i : Nat),
      (∀ e ∈ q, e.kind = TimedKind.delayEvent) →
      (∀ e ∈ q, e.enabled = true) →
      (q.map TimedEvent.id).count i = 0 →
      ((runTicks ticks q).1.map Prod.fst).count i = 0 := by
  intro ticks
  induction ticks with
  | nil =>
    intro q i _ _ _
    rw [runTicks_nil]
    simp
  | cons tk ticks ih =>
    intro q i hk he hz
    obtain ⟨now, fuel⟩ := tk
    rw [runTicks_cons]
    have hcnt := tickTimedAux_count now fuel q i hk he
    rw [hz] at hcnt
    have h1 : ((tickTimedAux now fuel q).1.map Prod.fst).count i = 0 := by omega
    have h2 : ((tickTimedAux now fuel q).2.map TimedEvent.id).count i = 0 := by omega
    have hk' : ∀ e ∈ (tickTimedAux now fuel q).2, e.kind = TimedKind.delayEvent :=
      fun e hmem => hk e (tickTimedAux_rem_mem now fuel q hk e hmem)
    have he' : ∀ e ∈ (tickTimedAux now fuel q).2, e.enabled = true :=
      fun e hmem => he e (tickTimedAux_rem_mem now fuel q hk e hmem)
    simp only [List.map_append, List.count_append]
    rw [h1, ih (tickTimedAux now fuel q).2 i hk' he' h2]

/-- Main multi-tick counting lemma for one-shot delivery: an enabled
`DelayEvent` whose id occurs once in an enabled delay-only queue, with
trigger time `t`, fires exactly once over a tick sequence iff some tick
happens at or after `t` (each tick being given enough fuel for its
drain to break on its own). -/
theorem runTicks_delay_once :
    ∀ (ticks : List (Nat × Nat)) (q : List TimedEvent) (i t : Nat),
      (∀ e ∈ q, e.kind = TimedKind.delayEvent) →
      (∀ e ∈ q, e.enabled = true) →
      (∀ e ∈ q, e.id = i → e.getTriggerTimeMicros = t) →
      (q.map TimedEvent.id).count i = 1 →
      (∀ p ∈ ticks, q.length ≤ p.2) →
      ((runTicks ticks q).1.map Prod.fst).count i =
        (if ticks.any (fun p => t ≤ p.1) then 1 else 0) := by
  intro ticks
  induction ticks with
  | nil =>
    intro q i t _ _ _ _ _
    rw [runTicks_nil]
    simp
  | cons tk ticks ih =>
    intro q i t hk he ht hone hfuel
    obtain ⟨now, fuel⟩ := tk
    rw [runTicks_cons]
    have hcnt := tickTimedAux_count now fuel q i hk he
    have hlen := tickTimedAux_length now fuel q hk he
    have hk' : ∀ e ∈ (tickTimedAux now fuel q).2, e.kind = TimedKind.delayEvent :=
      fun e hmem => hk e (tickTimedAux_rem_mem now fuel q hk e hmem)
    have he' : ∀ e ∈ (tickTimedAux now fuel q).2, e.enabled = true :=
      fun e hmem => he e (tickTimedAux_rem_mem now fuel q hk e hmem)
    have ht' : ∀ e ∈ (tickTimedAux now fuel q).2, e.id = i → e.getTriggerTimeMicros = t :=
      fun e hmem => ht e (tickTimedAux_rem_mem now fuel q hk e hmem)
    simp only [List.map_append, List.count_append]
    by_cases hnow : t ≤ now
    · have hrem0 : ((tickTimedAux now fuel q).2.map TimedEvent.id).count i = 0 := by
        rw [List.count_eq_zero]
        intro hcon
        obtain ⟨e, hmem, hei⟩ := List.mem_map.mp hcon
        have hte := ht' e hmem hei
        have := tickTimedAux_rem_not_due now fuel q hk he (hfuel (now, fuel) (by simp)) e hmem
        omega
      have hfired1 : ((tickTimedAux now fuel q).1.map Prod.fst).count i = 1 := by omega
      have hrest0 : ((runTicks ticks (tickTimedAux now fuel q).2).1.map Prod.fst).count i = 0 :=
        runTicks_count_zero ticks (tickTimedAux now fuel q).2 i hk' he' (by omega)
      rw [hfired1, hrest0]
      have hany : List.any ((now, fuel) :: ticks) (fun p => t ≤ p.1) = true := by
        simp [hnow]
      rw [hany]
      simp
    · have hfired0 : ((tickTimedAux now fuel q).1.map Prod.fst).count i = 0 := by
        rw [List.count_eq_zero]
        intro hcon
        obtain ⟨p, hmem, hpi⟩ := List.mem_map.mp hcon
        obtain ⟨e, hmemq, hei, hetrig⟩ := tickTimedAux_fired_from now fuel q hk p hmem
        have hdue := tickTimedAux_fired_due now fuel q p hmem
        have hte := ht e hmemq (by rw [hei, hpi])
        omega
      have hrem1 : ((tickTimedAux now fuel q).2.map TimedEvent.id).count i = 1 := by omega
      have hfuel' : ∀ p ∈ ticks, (tickTimedAux now fuel q).2.length ≤ p.2 := by
        intro p hp
        have := hfuel p (List.mem_cons_of_mem _ hp)
        omega
      rw [hfired0, ih (tickTimedAux now fuel q).2 i t hk' he' ht' hrem1 hfuel']
      have hany :
          List.any ((now, fuel) :: ticks) (fun p => t ≤ p.1) =
            List.any ticks (fun p => t ≤ p.1) := by
        simp [hnow]
      rw [hany]
      simp

/-! ## The claims -/

/-- C1: for a queue of enabled timed events whose trigger times are
pairwise distinct and all due at the `now` captured at the start of the
call, one `tickTimed` drain pops the minimum-trigger-time enabled
element each iteration, so the fired trigger times are non-decreasing;
and (for registered one-shot events, with fuel covering the drain)
every event's callback is invoked, in strictly increasing trigger-time
order. -/
theorem tickTimed_fires_due_events_in_trigger_time_order
    (now fuel : Nat) (q : List TimedEvent)
    (hov : ∀ e ∈ q, now + e.interval < U64)
    (hen : ∀ e ∈ q, e.enabled = true)
    (hdue : ∀ e ∈ q, e.getTriggerTimeMicros ≤ now)
    (hdist : (q.map TimedEvent.getTriggerTimeMicros).Pairwise (· ≠ ·)) :
    List.Sorted (· ≤ ·) ((tickTimedAux now fuel q).1.map Prod.snd) ∧
    ((∀ e ∈ q, e.kind = TimedKind.delayEvent) → q.length ≤ fuel →
      ((tickTimedAux now fuel q).1.Perm (q.map fun e => (e.id, e.getTriggerTimeMicros)) ∧
        List.Sorted (· < ·) ((tickTimedAux now fuel q).1.map Prod.snd))) := by
  refine ⟨(tickTimedAux_sorted now fuel q hov).2, ?_⟩
  intro hk hfuel
  have hrem : (tickTimedAux now fuel q).2 = [] := by
    rw [List.eq_nil_iff_forall_not_mem]
    intro e hmem
    have h1 := tickTimedAux_rem_mem now fuel q hk e hmem
    have h2 := tickTimedAux_rem_not_due now fuel q hk hen hfuel e hmem
    have h3 := hdue e h1
    omega
  have hperm := tickTimedAux_delay_perm now fuel q hk hen
  rw [hrem] at hperm
  simp only [List.map_nil, List.append_nil] at hperm
  refine ⟨hperm, ?_⟩
  have hsnd :
      ((tickTimedAux now fuel q).1.map Prod.snd).Perm
        (q.map TimedEvent.getTriggerTimeMicros) := by
    have h4 := hperm.map Prod.snd
    simpa [List.map_map, Function.comp] using h4
  have hne : ((tickTimedAux now fuel q).1.map Prod.snd).Pairwise (· ≠ ·) :=
    (List.Perm.pairwise_iff (fun h => Ne.symm h) hsnd).mpr hdist
  have hsorted := (tickTimedAux_sorted now fuel q hov).2
  exact (hsorted.and hne).imp fun h => Nat.lt_of_le_of_ne h.1 h.2

/-- Witness for C1: two due delay events with distinct trigger times
fire in strictly increasing trigger-time order. -/
theorem tickTimed_fires_due_events_in_trigger_time_order_witness :
    ((∀ e ∈ [delayA, delayB], 100 + e.interval < U64) ∧
      (∀ e ∈ [delayA, delayB], e.enabled = true) ∧
      (∀ e ∈ [delayA, delayB], e.getTriggerTimeMicros ≤ 100) ∧
      ([delayA, delayB].map TimedEvent.getTriggerTimeMicros).Pairwise (· ≠ ·)) ∧
    (List.Sorted (· ≤ ·) ((tickTimedAux 100 2 [delayA, delayB]).1.map Prod.snd) ∧
      (tickTimedAux 100 2 [delayA, delayB]).1.Perm
        ([delayA, delayB].map fun e => (e.id, e.getTriggerTimeMicros)) ∧
      List.Sorted (· < ·) ((tickTimedAux 100 2 [delayA, delayB]).1.map Prod.snd)) :=
  ⟨⟨by decide, by decide, by decide, by decide⟩,
   (tickTimed_fires_due_events_in_trigger_time_order 100 2 [delayA, delayB]
      (by decide) (by decide) (by decide) (by decide)).1,
   ((tickTimed_fires_due_events_in_trigger_time_order 100 2 [delayA, delayB]
      (by decide) (by decide) (by decide) (by decide)).2 (by decide) (by decide)).1,
   ((tickTimed_fires_due_events_in_trigger_time_order 100 2 [delayA, delayB]
      (by decide) (by decide) (by decide) (by decide)).2 (by decide) (by decide)).2⟩

/-- C5: removing (cancelling) a queued timed event marks it disabled,
and across any subsequent sequence of tick calls its callback is never
invoked: the drain pops and discards disabled entries without firing
them. -/
theorem cancelled_timed_event_never_fires
    (q : List TimedEvent) (i : Nat) (ticks : List (Nat × Nat)) :
    ∀ p ∈ (runTicks ticks (q.map fun e => if e.id = i then TimedEvent.remove e else e)).1,
      p.1 ≠ i := by
  apply runTicks_disabled_invariant
  intro e hmem hei
  obtain ⟨x, hx, hxe⟩ := List.mem_map.mp hmem
  by_cases hxi : x.id = i
  · rw [if_pos hxi] at hxe
    rw [← hxe]
    rfl
  · rw [if_neg hxi] at hxe
    rw [← hxe] at hei
    exact absurd hei hxi

/-- Witness for C5: with event 1 cancelled, the tick at time 100 fires
only event 3, whose id differs from the cancelled one. -/
theorem cancelled_timed_event_never_fires_witness :
    ((3 : Nat), (50 : Nat)) ∈
      (runTicks [(100, 2)]
        ([delayA, delayC].map fun e => if e.id = 1 then TimedEvent.remove e else e)).1 ∧
    (((3 : Nat), (50 : Nat)) : Nat × Nat).1 ≠ 1 :=
  ⟨by decide,
   cancelled_timed_event_never_fires [delayA, delayC] 1 [(100, 2)] (3, 50) (by decide)⟩

/-- C6: a delay event whose id occurs once in an enabled one-shot
queue, with trigger time `t`, fires exactly once across any sequence of
tick calls that includes a call at or past `t` (each call given enough
fuel for its drain to break on its own), and never fires when no call
reaches `t`. -/
theorem delayEvent_fires_exactly_once
    (q : List TimedEvent) (i t : Nat) (ticks : List (Nat × Nat))
    (hk : ∀ e ∈ q, e.kind = TimedKind.delayEvent)
    (he : ∀ e ∈ q, e.enabled = true)
    (ht : ∀ e ∈ q, e.id = i → e.getTriggerTimeMicros = t)
    (hone : (q.map TimedEvent.id).count i = 1)
    (hfuel : ∀ p ∈ ticks, q.length ≤ p.2) :
    ((runTicks ticks q).1.map Prod.fst).count i =
      (if ticks.any (fun p => t ≤ p.1) then 1 else 0) :=
  runTicks_delay_once ticks q i t hk he ht hone hfuel

/-- Witness for C6: a delay event with trigger time 50 fires exactly
once over the calls at times 10, 60, 100. -/
theorem delayEvent_fires_exactly_once_witness :
    ((∀ e ∈ [delayC], e.kind = TimedKind.delayEvent) ∧
      (∀ e ∈ [delayC], e.enabled = true) ∧
      (∀ e ∈ [delayC], e.id = 3 → e.getTriggerTimeMicros = 50) ∧
      ([delayC].map TimedEvent.id).count 3 = 1 ∧
      (∀ p ∈ [((10 : Nat), (1 : Nat)), (60, 1), (100, 1)], [delayC].length ≤ p.2)) ∧
    ((runTicks [(10, 1), (60, 1), (100, 1)] [delayC]).1.map Prod.fst).count 3 =
      (if List.any [((10 : Nat), (1 : Nat)), (60, 1), (100, 1)] (fun p => 50 ≤ p.1) then 1
        else 0) :=
  ⟨⟨by decide, by decide, by decide, by decide, by decide⟩,
   delayEvent_fires_exactly_once [delayC] 3 50 [(10, 1), (60, 1), (100, 1)]
     (by decide) (by decide) (by decide) (by decide) (by decide)⟩

/-- C10: the millisecond-based constructor computes the interval as
a 64-bit product `(uint64_t)1000 * (uintint64_t)interval`, which never
wraps for a 32-bit argument, so millisecond registration with `t` and
microsecond registration with `1000 * t` yield the same interval. -/
theorem millis_interval_never_overflows (t id now : Nat) (ht : t < 2 ^ 32) :
    intervalMicrosOfMillis t = 1000 * t ∧
    (TimedEvent.mkMillis id t now TimedKind.delayEvent).interval =
      (TimedEvent.mkMicros id (1000 * t) now TimedKind.delayEvent).interval := by
  have hlt : 1000 * t < U64 := by
    have h32 : (2 : Nat) ^ 32 = 4294967296 := by norm_num
    have h64 : U64 = 18446744073709551616 := by
      unfold U64
      norm_num
    rw [h32] at ht
    omega
  constructor
  · unfold intervalMicrosOfMillis
    exact Nat.mod_eq_of_lt hlt
  · rfl

/-- Witness for C10 at the largest 32-bit argument. -/
theorem millis_interval_never_overflows_witness :
    4294967295 < 2 ^ 32 ∧
    (intervalMicrosOfMillis 4294967295 = 1000 * 4294967295 ∧
      (TimedEvent.mkMillis 0 4294967295 0 TimedKind.delayEvent).interval =
        (TimedEvent.mkMicros 0 (1000 * 4294967295) 0 TimedKind.delayEvent).interval) :=
  ⟨by decide, millis_interval_never_overflows 4294967295 0 0 (by decide)⟩

theorem tickUntimed_cons (avail : Nat → Int) (x : UntimedEvent) (xs : List UntimedEvent) :
    tickUntimed avail (x :: xs) =
      (if x.tickFires avail then x.id :: tickUntimed avail xs else tickUntimed avail xs) := by
  rw [tickUntimed, List.filterMap_cons]
  by_cases h : x.tickFires avail
  · rw [if_pos h, if_pos h]
    rfl
  · rw [if_neg h, if_neg h]
    rfl

theorem tickUntimed_mem_ids (avail : Nat → Int) (l : List UntimedEvent) :
    ∀ x ∈ tickUntimed avail l, x ∈ l.map UntimedEvent.id := by
  induction l with
  | nil =>
    intro x hx
    simp [tickUntimed] at hx
  | cons e es ih =>
    intro x hx
    rw [tickUntimed_cons] at hx
    by_cases h : e.tickFires avail
    · rw [if_pos h] at hx
      rcases List.mem_cons.mp hx with hx | hx
      · subst hx
        simp
      · simp only [List.map_cons, List.mem_cons]
        exact Or.inr (ih x hx)
    · rw [if_neg h] at hx
      simp only [List.map_cons, List.mem_cons]
      exact Or.inr (ih x hx)

/-- In an untimed list where an event's id occurs exactly once, one
untimed pass invokes that event's callback exactly when the event's
firing condition holds. -/
theorem tickUntimed_count (avail : Nat → Int) (l : List UntimedEvent) (e : UntimedEvent)
    (hmem : e ∈ l) (huniq : (l.map UntimedEvent.id).count e.id = 1) :
    (tickUntimed avail l).count e.id = if e.tickFires avail then 1 else 0 := by
  induction l with
  | nil => simp at hmem
  | cons x xs ih =>
    rw [tickUntimed_cons]
    rcases List.mem_cons.mp hmem with hex | hex
    · subst hex
      have hxs : (xs.map UntimedEvent.id).count e.id = 0 := by
        simp [List.count_cons] at huniq
        omega
      have hnot : e.id ∉ tickUntimed avail xs := by
        intro hcon
        have := tickUntimed_mem_ids avail xs e.id hcon
        rw [List.count_eq_zero] at hxs
        exact hxs this
      have hz : (tickUntimed avail xs).count e.id = 0 := List.count_eq_zero.mpr hnot
      by_cases h : e.tickFires avail
      · rw [if_pos h, if_pos h, List.count_cons]
        simp [hz]
      · rw [if_neg h, if_neg h, hz]
    · have hxid : x.id ≠ e.id := by
        intro hcon
        have hpos : 0 < (xs.map UntimedEvent.id).count e.id := by
          rw [List.count_pos_iff]
          exact List.mem_map.mpr ⟨e, hex, rfl⟩
        simp only [List.map_cons, List.count_cons, hcon] at huniq
        simp at huniq
        omega
      have huniq' : (xs.map UntimedEvent.id).count e.id = 1 := by
        simp only [List.map_cons, List.count_cons] at huniq
        simp [hxid] at huniq
        exact huniq
      have hih := ih hex huniq'
      by_cases h : x.tickFires avail
      · rw [if_pos h, List.count_cons]
        simp [hxid, hih]
      · rw [if_neg h]
        exact hih

/-- C7: within one tick call, a stream event's callback is invoked
exactly when the stream's available() result is nonzero during that
call, and the event remains registered afterwards. -/
theorem streamEvent_fires_iff_available
    (avail : Nat → Int) (now fuel : Nat) (loop : EventLoop) (e : UntimedEvent) (s : Nat)
    (hmem : e ∈ loop.untimed_list) (hs : e.kind = UntimedKind.streamEvent s)
    (huniq : (loop.untimed_list.map UntimedEvent.id).count e.id = 1) :
    ((tickUntimed avail loop.untimed_list).count e.id =
        if avail s ≠ 0 then 1 else 0) ∧
    (EventLoop.tick avail now fuel loop).2.untimed_list = loop.untimed_list := by
  refine ⟨?_, rfl⟩
  rw [tickUntimed_count avail loop.untimed_list e hmem huniq]
  have hfeq : e.tickFires avail = (avail s != 0) := by
    rw [UntimedEvent.tickFires, hs]
  rw [hfeq]
  by_cases h : avail s = 0
  · simp [h]
  · simp [h]

/-- Witness for C7: with one unit of data available, the stream event
fires exactly once and the untimed list is unchanged. -/
theorem streamEvent_fires_iff_available_witness :
    (streamE ∈ loopU.untimed_list ∧ streamE.kind = UntimedKind.streamEvent 0 ∧
      (loopU.untimed_list.map UntimedEvent.id).count streamE.id = 1) ∧
    ((tickUntimed (fun _ => 1) loopU.untimed_list).count streamE.id =
        if (1 : Int) ≠ 0 then 1 else 0) ∧
    (EventLoop.tick (fun _ => 1) 0 1 loopU).2.untimed_list = loopU.untimed_list :=
  ⟨⟨by decide, by decide, by decide⟩,
   streamEvent_fires_iff_available (fun _ => 1) 0 1 loopU streamE 0
     (by decide) (by decide) (by decide)⟩

theorem tickUntimed_sublist (avail : Nat → Int) (l : List UntimedEvent) :
    List.Sublist (tickUntimed avail l) (l.map UntimedEvent.id) := by
  induction l with
  | nil => simp [tickUntimed]
  | cons e es ih =>
    rw [tickUntimed_cons, List.map_cons]
    by_cases h : e.tickFires avail
    · rw [if_pos h]
      exact ih.cons₂ e.id
    · rw [if_neg h]
      exact ih.cons e.id

theorem foldl_add (es : List UntimedEvent) (loop : EventLoop) :
    es.foldl (fun l e => UntimedEvent.add e l) loop =
      { loop with untimed_list := loop.untimed_list ++ es } := by
  induction es generalizing loop with
  | nil =>
    cases loop
    simp
  | cons e es ih =>
    rw [List.foldl_cons, ih]
    cases loop
    simp [UntimedEvent.add]

/-- C8: registering untimed events appends them in order, and one tick
call runs the untimed pass — whose firings follow the registration
order of the untimed list — strictly before the timed pass. -/
theorem tick_runs_untimed_in_registration_order_before_timed
    (avail : Nat → Int) (now fuel : Nat) (loop : EventLoop) (es : List UntimedEvent) :
    (es.foldl (fun l e => UntimedEvent.add e l) loop).untimed_list =
      loop.untimed_list ++ es ∧
    (EventLoop.tick avail now fuel (es.foldl (fun l e => UntimedEvent.add e l) loop)).1 =
      tickUntimed avail (loop.untimed_list ++ es) ++
        (tickTimedAux now fuel loop.timed_queue).1.map Prod.fst ∧
    List.Sublist (tickUntimed avail (loop.untimed_list ++ es))
      ((loop.untimed_list ++ es).map UntimedEvent.id) := by
  have hfold := foldl_add es loop
  refine ⟨by rw [hfold], ?_, tickUntimed_sublist avail _⟩
  rw [hfold]
  rfl

/-- C4 counterexample: for the concrete ISR event below with an
interrupt occurrence, it is false that the interrupt context only
records a pending marker (invoking no callback) and that the next tick
call invokes the event's callback: the trampoline itself invokes the
callback, and the tick call invokes nothing. -/
theorem isr_pending_marker_claim_false :
    ¬ (ISREvent.isr isrE = [] ∧
        isrE.id ∈ (EventLoop.tick (fun _ => 0) 0 1 loopISR).1) := by
  decide

/-- C4 (amended): the interrupt trampoline invokes the event's callback
directly in interrupt context; ISREvent::tick is a no-op; and tick()
has no interrupt pass — its trace is exactly the untimed pass followed
by the timed pass. -/
theorem isr_callback_runs_in_interrupt_context
    (e : ISREvent) (avail : Nat → Int) (now fuel : Nat) (loop : EventLoop) :
    ISREvent.isr e = [e.id] ∧
    ISREvent.tick e = [] ∧
    (EventLoop.tick avail now fuel loop).1 =
      tickUntimed avail loop.untimed_list ++
        (tickTimedAux now fuel loop.timed_queue).1.map Prod.fst :=
  ⟨rfl, rfl, rfl⟩

theorem react_isr_alloc_full (slots : List Bool) (h : ∀ b ∈ slots, b = true) :
    react_isr_alloc slots = (INVALID_ISR, slots) := by
  induction slots with
  | nil => rfl
  | cons b rest ih =>
    have hb : b = true := h b (List.mem_cons_self b rest)
    subst hb
    rw [react_isr_alloc, ih fun x hx => h x (List.mem_cons_of_mem _ hx)]
    simp

/-- C9 counterexample: with the platform's interrupt capacity
exhausted, EventLoop::onInterrupt still adds the new event to the ISR
registry (and returns it as a live handle), so it is false that no
event is added to any registry. -/
theorem onInterrupt_no_failure_path :
    ¬ ((EventLoop.onInterrupt 4 1 0 platFull loopEmpty).2.2.isr_event_list =
        loopEmpty.isr_event_list) := by
  decide

/-- C9 (amended): the legacy Reactduino::onInterrupt surfaces ISR-slot
exhaustion as INVALID_REACTION with the reaction table, slot table and
attached interrupts untouched, while the current EventLoop::onInterrupt
has no failure path: it appends the new event to the ISR registry and
returns it regardless of the platform registration outcome. -/
theorem onInterrupt_failure_behaviour
    (st : Reactduino) (number id : Nat)
    (p : GpioPlatform) (loop : EventLoop) (pin eid : Nat) (mode : Int)
    (hfull : ∀ b ∈ st.isr_slots, b = true) :
    Reactduino.onInterrupt st number id = (INVALID_REACTION, st) ∧
    (EventLoop.onInterrupt pin mode eid p loop).2.2.isr_event_list =
      loop.isr_event_list ++ [{ id := eid, pin_number := pin, mode := mode }] ∧
    (EventLoop.onInterrupt pin mode eid p loop).1 =
      { id := eid, pin_number := pin, mode := mode } := by
  refine ⟨?_, rfl, rfl⟩
  unfold Reactduino.onInterrupt
  rw [react_isr_alloc_full st.isr_slots hfull]
  simp

/-- Witness for C9: a two-slot platform with both slots in use refuses
the registration and leaves the state untouched. -/
theorem onInterrupt_failure_behaviour_witness :
    (∀ b ∈ reactduinoFull.isr_slots, b = true) ∧
    (Reactduino.onInterrupt reactduinoFull 4 9 = (INVALID_REACTION, reactduinoFull) ∧
      (EventLoop.onInterrupt 4 1 0 platFull loopEmpty).2.2.isr_event_list =
        loopEmpty.isr_event_list ++ [{ id := 0, pin_number := 4, mode := 1 }] ∧
      (EventLoop.onInterrupt 4 1 0 platFull loopEmpty).1 =
        { id := 0, pin_number := 4, mode := 1 }) :=
  ⟨by decide,
   onInterrupt_failure_behaviour reactduinoFull 4 9 platFull loopEmpty 4 0 1 (by decide)⟩

/-- C3: when the drain fires a repeat event it records the callback
invocation, updates the baseline exactly as the spec describes (under
64-bit arithmetic that does not wrap), and re-enqueues the event into
the timer queue used for the rest of the drain. -/
theorem repeatEvent_tick_steps
    (now n : Nat) (q rest : List TimedEvent) (top : TimedEvent)
    (hq : popMin q = some (top, rest)) (hen : top.enabled = true)
    (hdue : top.getTriggerTimeMicros ≤ now) (hkind : top.kind = TimedKind.repeatEvent)
    (hov : top.last_trigger_time + 2 * top.interval < U64) :
    tickTimedAux now (n + 1) q =
      ((top.id, top.getTriggerTimeMicros) ::
          (tickTimedAux now n (rest ++ [RepeatEvent.tickUpdate now top])).1,
        (tickTimedAux now n (rest ++ [RepeatEvent.tickUpdate now top])).2) ∧
    (RepeatEvent.tickUpdate now top).last_trigger_time =
      RepeatEventSpec.tickUpdateLast now top.last_trigger_time top.interval ∧
    RepeatEvent.tickUpdate now top ∈ rest ++ [RepeatEvent.tickUpdate now top] := by
  refine ⟨tickTimedAux_repeat now n hq hen hdue hkind, ?_, by simp⟩
  unfold RepeatEvent.tickUpdate RepeatEventSpec.tickUpdateLast
  have h1 :
      (top.last_trigger_time + top.interval) % U64 =
        top.last_trigger_time + top.interval :=
    Nat.mod_eq_of_lt (by omega)
  rw [h1]
  have h2 :
      (top.last_trigger_time + top.interval + top.interval) % U64 =
        top.last_trigger_time + top.interval + top.interval :=
    Nat.mod_eq_of_lt (by omega)
  rw [h2]
  split
  · rfl
  · rfl

/-- Witness for C3: the repeat event with interval 100 fired at time
150 keeps the periodic baseline 100 and is re-enqueued. -/
theorem repeatEvent_tick_steps_witness :
    (popMin [repeatR] = some (repeatR, []) ∧ repeatR.enabled = true ∧
      repeatR.getTriggerTimeMicros ≤ 150 ∧ repeatR.kind = TimedKind.repeatEvent ∧
      repeatR.last_trigger_time + 2 * repeatR.interval < U64) ∧
    (tickTimedAux 150 3 [repeatR] =
      ((repeatR.id, repeatR.getTriggerTimeMicros) ::
          (tickTimedAux 150 2 ([] ++ [RepeatEvent.tickUpdate 150 repeatR])).1,
        (tickTimedAux 150 2 ([] ++ [RepeatEvent.tickUpdate 150 repeatR])).2) ∧
      (RepeatEvent.tickUpdate 150 repeatR).last_trigger_time =
        RepeatEventSpec.tickUpdateLast 150 repeatR.last_trigger_time repeatR.interval ∧
      RepeatEvent.tickUpdate 150 repeatR ∈ [] ++ [RepeatEvent.tickUpdate 150 repeatR]) :=
  ⟨⟨by decide, by decide, by decide, by decide, by decide⟩,
   repeatEvent_tick_steps 150 2 [repeatR] [] repeatR
     (by decide) (by decide) (by decide) (by decide) (by decide)⟩

theorem repeat_step (now n : Nat) (e : TimedEvent) (hen : e.enabled = true)
    (hkind : e.kind = TimedKind.repeatEvent) (hdue : e.getTriggerTimeMicros ≤ now) :
    tickTimedAux now (n + 1) [e] =
      ((e.id, e.getTriggerTimeMicros) ::
          (tickTimedAux now n [RepeatEvent.tickUpdate now e]).1,
        (tickTimedAux now n [RepeatEvent.tickUpdate now e]).2) := by
  have h :=
    tickTimedAux_repeat now n (show popMin [e] = some (e, []) from rfl) hen hdue hkind
  simpa using h

theorem break_step (now n : Nat) (e : TimedEvent) (hen : e.enabled = true)
    (hnotdue : ¬ e.getTriggerTimeMicros ≤ now) :
    tickTimedAux now (n + 1) [e] = ([], [e]) :=
  tickTimedAux_break now n (show popMin [e] = some (e, []) from rfl) hen hnotdue

/-- One stalled repeat drain, catch-up case: when the loop has fallen
behind by more than one full interval, the event fires once and its
baseline is reset to `now`. -/
theorem repeatDrain_reset (id I last now f : Nat) (hI : 0 < I)
    (hc : last + I + I < now) (hov : now + I < U64) :
    tickTimedAux now (f + 3) [(⟨id, I, last, true, TimedKind.repeatEvent⟩ : TimedEvent)] =
      ([(id, last + I)], [(⟨id, I, now, true, TimedKind.repeatEvent⟩ : TimedEvent)]) := by
  have hm1 : last + I < U64 := by omega
  have hm2 : last + I + I < U64 := by omega
  have htrig :
      (⟨id, I, last, true, TimedKind.repeatEvent⟩ : TimedEvent).getTriggerTimeMicros =
        last + I := Nat.mod_eq_of_lt hm1
  have htrig2 :
      (⟨id, I, now, true, TimedKind.repeatEvent⟩ : TimedEvent).getTriggerTimeMicros =
        now + I := Nat.mod_eq_of_lt hov
  have hupd :
      RepeatEvent.tickUpdate now (⟨id, I, last, true, TimedKind.repeatEvent⟩ : TimedEvent) =
        (⟨id, I, now, true, TimedKind.repeatEvent⟩ : TimedEvent) := by
    simp only [RepeatEvent.tickUpdate]
    rw [Nat.mod_eq_of_lt hm1, Nat.mod_eq_of_lt hm2, if_pos hc]
  have hsplit : f + 3 = (f + 2) + 1 := rfl
  rw [hsplit,
    repeat_step now (f + 2) _ rfl rfl (by rw [htrig]; omega), hupd]
  have hsplit2 : f + 2 = (f + 1) + 1 := rfl
  rw [hsplit2, break_step now (f + 1) _ rfl (by rw [htrig2]; omega), htrig]

/-- One stalled repeat drain, periodic case: when the stall stays
within one extra interval, the event fires once and its baseline
advances by exactly one interval. -/
theorem repeatDrain_periodic (id I last now f : Nat)
    (hdue : last + I ≤ now) (hc : now < last + I + I) (hov : last + I + I < U64) :
    tickTimedAux now (f + 3) [(⟨id, I, last, true, TimedKind.repeatEvent⟩ : TimedEvent)] =
      ([(id, last + I)], [(⟨id, I, last + I, true, TimedKind.repeatEvent⟩ : TimedEvent)]) := by
  have hm1 : last + I < U64 := by omega
  have htrig :
      (⟨id, I, last, true, TimedKind.repeatEvent⟩ : TimedEvent).getTriggerTimeMicros =
        last + I := Nat.mod_eq_of_lt hm1
  have htrig2 :
      (⟨id, I, last + I, true, TimedKind.repeatEvent⟩ : TimedEvent).getTriggerTimeMicros =
        last + I + I := Nat.mod_eq_of_lt hov
  have hupd :
      RepeatEvent.tickUpdate now (⟨id, I, last, true, TimedKind.repeatEvent⟩ : TimedEvent) =
        (⟨id, I, last + I, true, TimedKind.repeatEvent⟩ : TimedEvent) := by
    simp only [RepeatEvent.tickUpdate]
    rw [Nat.mod_eq_of_lt hm1, Nat.mod_eq_of_lt hov, if_neg (by omega)]
  have hsplit : f + 3 = (f + 2) + 1 := rfl
  rw [hsplit,
    repeat_step now (f + 2) _ rfl rfl (by rw [htrig]; omega), hupd]
  have hsplit2 : f + 2 = (f + 1) + 1 := rfl
  rw [hsplit2, break_step now (f + 1) _ rfl (by rw [htrig2]; omega), htrig]

/-- One stalled repeat drain, boundary case `now = last + 2 I`: the
event fires twice within the single call, ending with baseline `now`. -/
theorem repeatDrain_boundary (id I last f : Nat) (hI : 0 < I)
    (hov : last + I + I + I < U64) :
    tickTimedAux (last + I + I) (f + 3)
        [(⟨id, I, last, true, TimedKind.repeatEvent⟩ : TimedEvent)] =
      ([(id, last + I), (id, last + I + I)],
        [(⟨id, I, last + I + I, true, TimedKind.repeatEvent⟩ : TimedEvent)]) := by
  have hm1 : last + I < U64 := by omega
  have hm2 : last + I + I < U64 := by omega
  have htrig :
      (⟨id, I, last, true, TimedKind.repeatEvent⟩ : TimedEvent).getTriggerTimeMicros =
        last + I := Nat.mod_eq_of_lt hm1
  have htrig2 :
      (⟨id, I, last + I, true, TimedKind.repeatEvent⟩ : TimedEvent).getTriggerTimeMicros =
        last + I + I := Nat.mod_eq_of_lt hm2
  have htrig3 :
      (⟨id, I, last + I + I, true, TimedKind.repeatEvent⟩ : TimedEvent).getTriggerTimeMicros =
        last + I + I + I := Nat.mod_eq_of_lt hov
  have hupd :
      RepeatEvent.tickUpdate (last + I + I)
          (⟨id, I, last, true, TimedKind.repeatEvent⟩ : TimedEvent) =
        (⟨id, I, last + I, true, TimedKind.repeatEvent⟩ : TimedEvent) := by
    simp only [RepeatEvent.tickUpdate]
    rw [Nat.mod_eq_of_lt hm1, Nat.mod_eq_of_lt hm2, if_neg (by omega)]
  have hupd2 :
      RepeatEvent.tickUpdate (last + I + I)
          (⟨id, I, last + I, true, TimedKind.repeatEvent⟩ : TimedEvent) =
        (⟨id, I, last + I + I, true, TimedKind.repeatEvent⟩ : TimedEvent) := by
    simp only [RepeatEvent.tickUpdate]
    rw [Nat.mod_eq_of_lt hm2, Nat.mod_eq_of_lt hov, if_neg (by omega)]
  have hsplit : f + 3 = (f + 2) + 1 := rfl
  rw [hsplit,
    repeat_step (last + I + I) (f + 2) _ rfl rfl (by rw [htrig]; omega), hupd]
  have hsplit2 : f + 2 = (f + 1) + 1 := rfl
  rw [hsplit2,
    repeat_step (last + I + I) (f + 1) _ rfl rfl (by rw [htrig2]), hupd2]
  have hsplit3 : f + 1 = f + 1 := rfl
  rw [break_step (last + I + I) f _ rfl (by rw [htrig3]; omega), htrig, htrig2]

/-- C2 counterexample: for interval 100, baseline 0 and a stall of
1*100 + 50 before the tick call (k = 1, d = 50), the call fires the
event once but the new baseline is last + I = 100, not now = 150 — so
the claim (exactly one firing with the baseline reset to now, for all
k ≥ 1 and 0 ≤ d < I) is false. -/
theorem repeat_stall_claim_false :
    ¬ (∀ (id I last k d fuel : Nat), 0 < I → 1 ≤ k → d < I → 3 ≤ fuel →
        last + k * I + d + 2 * I < U64 →
        ((tickTimedAux (last + k * I + d) fuel
            [(⟨id, I, last, true, TimedKind.repeatEvent⟩ : TimedEvent)]).1.length = 1 ∧
          ∀ e ∈ (tickTimedAux (last + k * I + d) fuel
              [(⟨id, I, last, true, TimedKind.repeatEvent⟩ : TimedEvent)]).2,
            e.last_trigger_time = last + k * I + d)) := by
  intro h
  have h0 := h 0 100 0 1 50 3 (by decide) (by decide) (by decide) (by decide) (by decide)
  exact absurd h0 (by decide)

/-- C2 (amended): a repeat event with interval I and baseline `last`,
ticked after a stall of k*I + d (k ≥ 1, 0 ≤ d < I), fires exactly once
with new baseline `now` when the stall strictly exceeds two intervals
(k ≥ 3, or k = 2 with d ≥ 1); fires exactly once with new baseline
`last + I` when k = 1; and at the exact boundary k = 2, d = 0 fires
twice within the single call, ending with baseline `now`. -/
theorem repeat_stall_bounded_catchup (id I last k d fuel : Nat)
    (hI : 0 < I) (hk : 1 ≤ k) (hd : d < I) (hfuel : 3 ≤ fuel)
    (hov : last + k * I + d + 2 * I < U64) :
    tickTimedAux (last + k * I + d) fuel
        [(⟨id, I, last, true, TimedKind.repeatEvent⟩ : TimedEvent)] =
      ((if k = 2 ∧ d = 0 then [(id, last + I), (id, last + 2 * I)] else [(id, last + I)]),
        [(⟨id, I, (if k = 1 then last + I else last + k * I + d), true,
            TimedKind.repeatEvent⟩ : TimedEvent)]) := by
  obtain ⟨f, rfl⟩ : ∃ f, fuel = f + 3 := ⟨fuel - 3, by omega⟩
  match k, hk with
  | 1, _ =>
    rw [if_neg (by omega), if_pos rfl]
    have hone : last + 1 * I + d = last + I + d := by ring
    rw [hone]
    exact repeatDrain_periodic id I last (last + I + d) f (by omega) (by omega)
      (by rw [hone] at hov; omega)
  | 2, _ =>
    rcases Nat.eq_zero_or_pos d with hd0 | hdpos
    · subst hd0
      rw [if_pos ⟨rfl, rfl⟩, if_neg (by omega)]
      have htwo : last + 2 * I + 0 = last + I + I := by ring
      rw [htwo]
      have h2I : last + 2 * I = last + I + I := by ring
      rw [h2I]
      exact repeatDrain_boundary id I last f hI (by rw [htwo] at hov; omega)
    · rw [if_neg (by omega), if_neg (by omega)]
      have htwo : last + 2 * I + d = last + I + I + d := by ring
      exact repeatDrain_reset id I last (last + 2 * I + d) f hI (by omega) (by omega)
  | (kk + 3), _ =>
    rw [if_neg (by omega), if_neg (by omega)]
    have hexp : (kk + 3) * I = kk * I + 3 * I := by ring
    refine repeatDrain_reset id I last (last + (kk + 3) * I + d) f hI ?_ ?_
    · rw [hexp]
      omega
    · rw [hexp] at hov ⊢
      omega

/-- Witness for C2 (amended), at interval 100, baseline 0, k = 3,
d = 5: the event fires once at trigger time 100 and its new baseline is
now = 305. -/
theorem repeat_stall_bounded_catchup_witness :
    ((0 : Nat) < 100 ∧ (1 : Nat) ≤ 3 ∧ (5 : Nat) < 100 ∧ (3 : Nat) ≤ 3 ∧
      0 + 3 * 100 + 5 + 2 * 100 < U64) ∧
    tickTimedAux (0 + 3 * 100 + 5) 3
        [(⟨9, 100, 0, true, TimedKind.repeatEvent⟩ : TimedEvent)] =
      ((if (3 : Nat) = 2 ∧ (5 : Nat) = 0 then [(9, 0 + 100), (9, 0 + 2 * 100)]
          else [(9, 0 + 100)]),
        [(⟨9, 100, (if (3 : Nat) = 1 then 0 + 100 else 0 + 3 * 100 + 5), true,
            TimedKind.repeatEvent⟩ : TimedEvent)]) :=
  ⟨⟨by decide, by decide, by decide, by decide, by decide⟩,
   repeat_stall_bounded_catchup 9 100 0 3 5 3
     (by decide) (by decide) (by decide) (by decide) (by decide)⟩

example :
    tickTimedAux 200 4
      [{ id := 7, interval := 100, last_trigger_time := 0, enabled := true,
         kind := TimedKind.repeatEvent }] =
      ([(7, 100), (7, 200)],
       [{ id := 7, interval := 100, last_trigger_time := 200, enabled := true,
          kind := TimedKind.repeatEvent }]) := by
  decide

example :
    Reactduino.onInterrupt
      { table := [none, none], top := 0, isr_slots := [true, true], attached_pins := [] }
      4 9 =
      (INVALID_REACTION,
       { table := [none, none], top := 0, isr_slots := [true, true], attached_pins := [] }) := by
  decide

example :
    Reactduino.onInterrupt
      { table := [none, none], top := 0, isr_slots := [true, false], attached_pins := [] }
      4 9 =
      (0,
       { table := [some (ReactionEntry.isrReactionEntry 4 1 9), none], top := 1,
         isr_slots := [true, true], attached_pins := [4] }) := by
  decide

end ReactESP
